import Mathlib

/-!
# Verification of `mlforecast.core` (TimeSeries feature engine)

A shallow embedding of `src/mlforecast/core.py` together with proofs about
the behaviour claimed in the specification.

Modelling choices:
* Numeric values in the flat time-series buffer are modelled as `Val := Option Int`
  where `none` plays the role of IEEE `NaN` (a missing value marker).  All the
  code paths of interest treat `NaN` purely as a marker (tested with `isnan`),
  never relying on float arithmetic.
* A `GroupedArray` is modelled by its list of groups (`List (List Val)`), and,
  where the source manipulates the flat representation directly
  (`_expand_target`), by a flat buffer plus `indptr` offsets.
* The class `GroupedArray` itself lives in `grouped_array.py`, which is not part
  of the sources; its operations used by `core.py` (`append`, `take`,
  `take_from_groups`, `transform_series`) are modelled from the spec, as noted
  in their doc comments.
* Models, transform functions and callbacks are external capabilities; they are
  modelled as opaque Lean functions (transform functions may fail, so they
  return `Except`).
-/

namespace MLForecast

/-- A buffer value: `none` models IEEE NaN (missing), `some n` a real number. -/
abbrev Val := Option Int

/-- The NaN marker. -/
def nan : Val := none

/-- Model of `np.isnan` on a single value. -/
def isnan (v : Val) : Bool := v.isNone

/-! ## Transform naming (`_build_transform_name`, `_name_models`) -/

/-- Model of a transform function as seen by `_build_transform_name`:
its `__name__` and its parameters after the input-array argument, each with an
optional declared default (`none` models a parameter without default). -/
structure Tfm where
  name : String
  params : List (String × Option Int)

/-- Embedding of `_build_transform_name(lag, tfm, *args)`
(src/mlforecast/core.py:51-63): base name `{tfm.__name__}_lag{lag}`, extended
with `"{name}{value}"` for each positional argument whose value differs from
the parameter's declared default. -/
def buildTransformName (lag : Nat) (tfm : Tfm) (args : List Int) : String :=
  let tfmName := tfm.name ++ "_lag" ++ toString lag
  let changedParams := (args.zip tfm.params).filterMap
    (fun pr => if pr.2.2 ≠ some pr.1 then some (pr.2.1 ++ toString pr.1) else none)
  if changedParams.isEmpty then tfmName
  else tfmName ++ "_" ++ String.intercalate "_" changedParams

/-- The loop body of `_name_models` (src/mlforecast/core.py:73-80), processing
`reversed(current_names)` with the running `Counter`: an occurrence whose
current count exceeds 1 gets the count appended (`f"{x}{count}"`) and the
counter decremented; otherwise the name stays bare. -/
def nameModelsGo : List String → (String → Nat) → List String
  | [], _ => []
  | x :: rest, ctr =>
    let count := ctr x
    if count > 1 then
      (x ++ toString count) :: nameModelsGo rest (fun y => if y = x then count - 1 else ctr y)
    else
      x :: nameModelsGo rest ctr

/-- Embedding of `_name_models(current_names)` (src/mlforecast/core.py:66-81).
Empty input returns `[]`; if no name repeats the input is returned unchanged;
otherwise the names are rewritten from the end backwards using the counter. -/
def nameModels (currentNames : List String) : List String :=
  if currentNames.isEmpty then []
  else if currentNames.all (fun x => currentNames.count x < 2) then currentNames
  else (nameModelsGo currentNames.reverse (fun x => currentNames.count x)).reverse

/-- Counter-free form of the `_name_models` loop over the reversed list: the
head `x` gets suffix `rest.count x + 1` when `x` reappears later (earlier in
the original order), else stays bare. -/
def nameRev : List String → List String
  | [] => []
  | x :: rest =>
    (if rest.count x = 0 then x else x ++ toString (rest.count x + 1)) :: nameRev rest

/-- The core renaming of `_name_models` (the branch taken when a name repeats),
written over the original order. -/
def coreNames (l : List String) : List String := (nameRev l.reverse).reverse

/-- The name the spec-level rule assigns to position `k`: the element itself
when it is the first occurrence in the prefix through `k`, otherwise the
element with the occurrence number appended. -/
def specName (l : List String) (k : Nat) : String :=
  let x := l.getD k ""
  let m := (l.take (k + 1)).count x
  if m ≤ 1 then x else x ++ toString m

/-! ## The transforms registry built by `TimeSeries.__init__` -/

/-- Assignment into an ordered dict (`OrderedDict.__setitem__`): an existing
key keeps its position and gets its value replaced; a fresh key is appended. -/
def odInsert {α : Type} (od : List (String × α)) (k : String) (v : α) : List (String × α) :=
  if od.any (fun p => p.1 = k) then
    od.map (fun p => if p.1 = k then (k, v) else p)
  else od ++ [(k, v)]

/-- A registered transform: the lag, the function (modelled abstractly by its
`Tfm` descriptor) and the extra positional arguments. -/
structure TfmEntry where
  lag : Nat
  tfm : Tfm
  args : List Int

/-- Embedding of the registry construction in `TimeSeries.__init__`
(src/mlforecast/core.py:161-168): identity lags first under names `lag{L}`,
then every `(lag, [transform...])` registration under its built name, all
inserted into one ordered dict keyed by name. -/
def buildTransforms (lags : List Nat) (lagTransforms : List (Nat × List (Tfm × List Int))) :
    List (String × TfmEntry) :=
  let identityTfm : Tfm := { name := "_identity", params := [] }
  let od := lags.foldl
    (fun od lag => odInsert od ("lag" ++ toString lag) ⟨lag, identityTfm, []⟩) []
  lagTransforms.foldl
    (fun od pr =>
      pr.2.foldl
        (fun od ta => odInsert od (buildTransformName pr.1 ta.1 ta.2) ⟨pr.1, ta.1, ta.2⟩)
        od)
    od

/-! ## The transform engine (`_apply_transforms`, `_apply_multithreaded_transforms`)

A transform function is user-supplied code: it may fail, so it returns
`Except String (List Val)`.  The `GroupedArray` class lives in the missing
`grouped_array.py`; its `transform_series` operation is modelled from the
spec below. -/

/-- A registered transform spec as stored in `self.transforms`: the lag, the
transform function, and its extra positional arguments. -/
structure TfmSpec where
  lag : Nat
  fn : List Int → List Val → Except String (List Val)
  args : List Int

/-- Embedding of `_identity` (src/mlforecast/core.py:84-87): do nothing to the
input, never fails. -/
def identityFn : List Int → List Val → Except String (List Val) :=
  fun _ x => .ok x

/-- The registry entry created for a plain lag `L` in `TimeSeries.__init__`
(core.py:162-163): name `lag{L}`, transform `_identity`, no extra args. -/
def lagEntry (L : Nat) : String × TfmSpec :=
  ("lag" ++ toString L, ⟨L, identityFn, []⟩)

/-- A transform that raises: models a user-supplied function failing with the
given message. -/
def erroringTfm (msg : String) : TfmSpec :=
  ⟨1, fun _ _ => .error msg, []⟩

/-- Modelled from the spec: the lag shift applied to one group's sub-array —
positions before `lag` become NaN, the rest are the group's values shifted
forward by `lag`; the length is preserved. -/
def shiftArray (lag : Nat) (s : List Val) : List Val :=
  List.replicate (min lag s.length) nan ++ s.take (s.length - lag)

/-- Modelled from the spec: `GroupedArray.transform_series(updates_only, lag,
tfm, *args)` from the missing `grouped_array.py` — "for every group, apply
`fn` to the lag-shifted sub-array of that group and return one flat output
buffer of the same total length (or, if `updates_only`, one value per group
representing only the most recent point)". -/
def transformSeries (gs : List (List Val)) (updatesOnly : Bool) (lag : Nat)
    (fn : List Int → List Val → Except String (List Val)) (args : List Int) :
    Except String (List Val) :=
  if updatesOnly then
    (gs.mapM (fun g => fn args (shiftArray lag g))).map
      (fun outs => outs.map (fun o => o.getLastD nan))
  else
    (gs.mapM (fun g => fn args (shiftArray lag g))).map List.flatten

/-- The task submitted for one registered transform: the feature name paired
with the result of `self.ga.transform_series(updates_only, lag - offset, tfm,
*args)` where `offset = 1 if updates_only else 0`
(src/mlforecast/core.py:258-262 and 274-283). -/
def taskOf (gs : List (List Val)) (updatesOnly : Bool) (p : String × TfmSpec) :
    String × Except String (List Val) :=
  (p.1, transformSeries gs updatesOnly (p.2.lag - (if updatesOnly then 1 else 0))
    p.2.fn p.2.args)

/-- Collection of task results into the `results` dict, in the order the
tasks are consumed: a failing task re-raises its error (`future.result()`),
discarding everything collected so far. -/
def collectResults {E B : Type} :
    List (String × Except E B) → List (String × B) → Except E (List (String × B))
  | [], acc => .ok acc
  | (n, .ok v) :: rest, acc => collectResults rest (odInsert acc n v)
  | (_, .error e) :: _, _ => .error e

/-- Embedding of `TimeSeries._apply_transforms` (src/mlforecast/core.py:252-263):
tasks are consumed in registration order. -/
def applyTransforms (gs : List (List Val)) (updatesOnly : Bool)
    (transforms : List (String × TfmSpec)) : Except String (List (String × List Val)) :=
  collectResults (transforms.map (taskOf gs updatesOnly)) []

/-- Embedding of `TimeSeries._apply_multithreaded_transforms`
(src/mlforecast/core.py:265-288): the same tasks, but consumed in completion
order (`concurrent.futures.as_completed`), which is an arbitrary permutation
of the registration order. -/
def applyTransformsMT (gs : List (List Val)) (updatesOnly : Bool)
    (completionOrder : List (String × TfmSpec)) :
    Except String (List (String × List Val)) :=
  collectResults (completionOrder.map (taskOf gs updatesOnly)) []

/-- Dict lookup by key (first match; with distinct keys this is dict access). -/
def alookup {α : Type} (k : String) : List (String × α) → Option α
  | [] => none
  | p :: rest => if p.1 = k then some p.2 else alookup k rest

/-- The successful task results, in consumption order. -/
def okResults {E B : Type} (tasks : List (String × Except E B)) : List (String × B) :=
  tasks.filterMap (fun p => match p.2 with | .ok v => some (p.1, v) | .error _ => none)

/-! ## The recursive and direct forecasting loops

The feature pipeline feeding each model (`_update_features` plus static and
date features) is an external concern here; a model is abstracted as a
function from the current working grouped array to one prediction per active
series. -/

/-- An external model capability: `model.predict` on the features built from
the current working grouped array. -/
abbrev Model := List (List Val) → List Val

/-- The grouped-array state carried by a `predict` call: the ground truth
(`self._ga`), the working copy (`self.ga`) and the prediction buffer
(`self.y_pred`). -/
structure PredictState where
  gt : List (List Val)
  ga : List (List Val)
  yPred : List (List Val)

/-- Modelled from the spec: `GroupedArray.append(values)` from the missing
`grouped_array.py` — appends one value to the tail of every group, failing
(`ShapeError`) when `len(values)` differs from the number of groups. -/
def appendGA (gs : List (List Val)) (vs : List Val) : Option (List (List Val)) :=
  if vs.length = gs.length then some (List.zipWith (fun g v => g ++ [v]) gs vs)
  else none

/-- Modelled from the spec: `GroupedArray.take(idxs)` from the missing
`grouped_array.py` — a new grouped array holding only the selected groups. -/
def takeGroups (gs : List (List Val)) (idxs : List Nat) : List (List Val) :=
  idxs.map (fun i => gs.getD i [])

/-- Modelled from the spec: `GroupedArray.take_from_groups(slice(-n, None))`
from the missing `grouped_array.py` — keep the trailing `n` observations of a
group. -/
def lastN (n : Nat) (g : List Val) : List Val := g.drop (g.length - n)

/-- Embedding of `TimeSeries._predict_setup` (src/mlforecast/core.py:450-460)
restricted to the grouped-array state: the working copy is restored from the
ground truth, restricted to the requested ids (`self._idxs`), and truncated to
`keep_last_n`. -/
def predictSetup (gt : List (List Val)) (idxs : Option (List Nat))
    (keepLastN : Option Nat) : List (List Val) :=
  let g := match idxs with
    | none => gt
    | some is => takeGroups gt is
  match keepLastN with
  | none => g
  | some n => g.map (lastN n)

/-- `after_predict_callback` application (src/mlforecast/core.py:497-499):
absent callbacks leave the predictions untouched. -/
def applyAfterCb (cb : Option (List Val → List Val)) (preds : List Val) : List Val :=
  match cb with
  | none => preds
  | some f => f preds

/-- One iteration of the horizon loop in `_predict_recursive`
(src/mlforecast/core.py:492-500): predict from the current state, apply the
callback, then `_update_y` records the predictions and appends them to the
working grouped array. -/
def stepOnce (m : Model) (cb : Option (List Val → List Val)) (st : PredictState) :
    Option PredictState :=
  let preds := applyAfterCb cb (m st.ga)
  (appendGA st.ga preds).map (fun ga2 => { st with ga := ga2, yPred := st.yPred ++ [preds] })

/-- The horizon loop of `_predict_recursive`. -/
def runSteps (m : Model) (cb : Option (List Val → List Val)) :
    Nat → PredictState → Option PredictState
  | 0, st => some st
  | h + 1, st => stepOnce m cb st >>= runSteps m cb h

/-- One model's simulation in `_predict_recursive`: `_predict_setup` then the
horizon loop, starting from the ground truth. -/
def runModel (gt : List (List Val)) (idxs : Option (List Nat)) (keepLastN : Option Nat)
    (m : Model) (cb : Option (List Val → List Val)) (h : Nat) : Option PredictState :=
  runSteps m cb h { gt := gt, ga := predictSetup gt idxs keepLastN, yPred := [] }

/-- `np.array(y_pred).ravel("F")` (src/mlforecast/core.py:432-433): the
step-major matrix of predictions read column-by-column, i.e. for each series
all its steps in order. -/
def ravelF (yPred : List (List Val)) : List Val := (List.transpose yPred).flatten

/-- Embedding of `TimeSeries._predict_recursive` (src/mlforecast/core.py:478-508):
each model runs a fresh simulation from `_predict_setup`; its raveled
predictions become one output column.  The returned state is the one left by
the last model (an empty models dict leaves `preds` unbound, hence `none`). -/
def predictRecursive (gt : List (List Val)) (idxs : Option (List Nat))
    (keepLastN : Option Nat) (cb : Option (List Val → List Val)) (h : Nat) :
    List Model → Option (PredictState × List (List Val))
  | [] => none
  | [m] => (runModel gt idxs keepLastN m cb h).map (fun st => (st, [ravelF st.yPred]))
  | m :: m2 :: rest =>
    (runModel gt idxs keepLastN m cb h).bind (fun st =>
      (predictRecursive gt idxs keepLastN cb h (m2 :: rest)).map
        (fun pr => (pr.1, ravelF st.yPred :: pr.2)))

/-- A direct multi-horizon model bundle: one fitted model per horizon step. -/
abbrev MultiModel := List Model

/-- Embedding of `TimeSeries._predict_multi` (src/mlforecast/core.py:510-544):
the horizon must not exceed `max_horizon`; per model bundle, features are
computed once after `_predict_setup` and each per-horizon model fills one
column of the predictions matrix, which is raveled row-major (series-major).
No `after_predict_callback` exists on this path. -/
def predictMulti (gt : List (List Val)) (idxs : Option (List Nat))
    (keepLastN : Option Nat) (h : Nat) (maxHorizon : Nat) (models : List MultiModel) :
    Option (List (List Val)) :=
  if h > maxHorizon then none
  else some (models.map (fun perH =>
    let ga := predictSetup gt idxs keepLastN
    (List.transpose ((List.range h).map (fun i => (perH.getD i (fun _ => [])) ga))).flatten))

/-- The dispatch at the end of `TimeSeries.predict` (src/mlforecast/core.py:602-618):
when `max_horizon` is unset the recursive path runs with the
`after_predict_callback`; otherwise the direct path runs and the callback is
not passed at all. -/
def predictDispatch (maxHorizon : Option Nat) (gt : List (List Val))
    (idxs : Option (List Nat)) (keepLastN : Option Nat) (models : List Model)
    (multiModels : List MultiModel) (cb : Option (List Val → List Val)) (h : Nat) :
    Option (List (List Val)) :=
  match maxHorizon with
  | none => (predictRecursive gt idxs keepLastN cb h models).map Prod.snd
  | some mh => predictMulti gt idxs keepLastN h mh multiModels

/-! ## Null-row filtering in `TimeSeries._transform` -/

/-- The training target of `_transform`: a single column (`max_horizon is
None`) or a `max_horizon`-wide matrix (direct multi-horizon mode). -/
inductive Target where
  | single : List Val → Target
  | multi : List (List Val) → Target

/-- Row count of the target. -/
def targetLength : Target → Nat
  | .single t => t.length
  | .multi t => t.length

/-- `feature_nulls` (src/mlforecast/core.py:336-338): starts all-false and ORs
in each feature's NaN mask. -/
def featureNulls (nRows : Nat) (features : List (List Val)) : List Bool :=
  features.foldl (fun acc f => List.zipWith (fun a b => a || b) acc (f.map isnan))
    (List.replicate nRows false)

/-- `target_nulls` (src/mlforecast/core.py:339-343): elementwise NaN test for
a single column; for the matrix case a row is null only when every horizon's
value is null (`target_nulls.all(axis=1)`). -/
def targetNulls : Target → List Bool
  | .single t => t.map isnan
  | .multi t => t.map (fun row => row.all isnan)

/-- `keep_rows = ~(feature_nulls | target_nulls)` (src/mlforecast/core.py:344). -/
def keepRows (nRows : Nat) (features : List (List Val)) (target : Target) : List Bool :=
  List.zipWith (fun a b => !(a || b)) (featureNulls nRows features) (targetNulls target)

/-- Boolean-mask row selection (`df[keep_rows]`, `target[keep_rows]`). -/
def filterByMask {α : Type} (mask : List Bool) (rows : List α) : List α :=
  ((mask.zip rows).filter (fun p => p.1)).map Prod.snd

/-- Mask selection on the target. -/
def filterTarget (mask : List Bool) : Target → Target
  | .single t => .single (filterByMask mask t)
  | .multi t => .multi (filterByMask mask t)

/-- The row-dropping step of `TimeSeries._transform` (src/mlforecast/core.py:334-349):
with `dropna` the mask selects the rows kept in both the frame and the
target; without it every row is kept. -/
def transformDrop {α : Type} (dropna : Bool) (df : List α) (features : List (List Val))
    (target : Target) : List α × Target :=
  if dropna then
    let keep := keepRows df.length features target
    (filterByMask keep df, filterTarget keep target)
  else (df, target)

/-- A row's feature-null status: some feature value at row `i` is NaN. -/
def rowHasNullFeature (features : List (List Val)) (i : Nat) : Bool :=
  features.any (fun f => isnan (f.getD i nan))

/-! ## `_expand_target` -/

/-- `data[lo:hi]`. -/
def sliceArr (data : List Val) (lo hi : Nat) : List Val := (data.drop lo).take (hi - lo)

/-- The inner loops of `_expand_target` for one series
(src/mlforecast/core.py:104-110): row `j` holds `serie[j+k]` for
`k < upper = min(serie.size - j, max_horizon)` and NaN for
`upper ≤ k < max_horizon`. -/
def expandSerie (serie : List Val) (maxHorizon : Nat) : List (List Val) :=
  (List.range serie.length).map (fun j =>
    let upper := min (serie.length - j) maxHorizon
    ((serie.drop j).take upper) ++ List.replicate (maxHorizon - upper) nan)

/-- Embedding of `_expand_target(data, indptr, max_horizon)`
(src/mlforecast/core.py:97-111): one block of rows per series
`data[indptr[i]:indptr[i+1]]`, written in series order. -/
def expandTarget (data : List Val) (indptr : List Nat) (maxHorizon : Nat) :
    List (List Val) :=
  ((indptr.zip indptr.tail).map
    (fun pr => expandSerie (sliceArr data pr.1 pr.2) maxHorizon)).flatten

/-- The `indptr` of a well-formed grouped array with groups `gs`
(cumulative group sizes starting at 0). -/
def cumIndptr (gs : List (List Val)) : List Nat :=
  match gs with
  | [] => [0]
  | g :: rest => 0 :: (cumIndptr rest).map (fun o => o + g.length)

/-! ## `X_df` validation in `TimeSeries.predict` -/

/-- The error cases of the exogenous-frame validation. -/
inductive XdfError where
  | missingIdTime
  | noExogenous
  | staticConflict
  | missingRows
deriving DecidableEq

/-- Whether an `(id, time)` row of `X_df` survives the merge with
`dates_validation` and the `between(_start, _end)` filter
(src/mlforecast/core.py:585-593): its id is a requested id and its time lies
in `[last + freq, last + horizon*freq]`. -/
def inForecastWindow (uidDates : List (String × Int)) (freq : Int) (horizon : Nat)
    (r : String × Int) : Bool :=
  uidDates.any (fun ud => ud.1 = r.1 ∧ ud.2 + freq ≤ r.2 ∧ r.2 ≤ ud.2 + (horizon : Int) * freq)

/-- `statics.intersection(dynamics)` (src/mlforecast/core.py:576-578):
`statics` are the static-features columns without the id column, `dynamics`
the `X_df` columns without the id and time columns. -/
def commonCols (idCol timeCol : String) (staticCols xCols : List String) : List String :=
  (staticCols.filter (fun c => c ≠ idCol)).filter
    (fun c => c ∈ xCols.filter (fun c2 => c2 ≠ idCol ∧ c2 ≠ timeCol))

/-- Embedding of the `X_df` validation in `TimeSeries.predict`
(src/mlforecast/core.py:569-601), run before dispatching to the forecasting
loop.  `uidDates` pairs each requested id (`self._uids`) with its last date,
`staticCols` are the columns of `self.static_features_`, `xCols` the columns
of `X_df` and `xRows` its `(id, time)` pairs. -/
def validatePredXdf (idCol timeCol : String) (staticCols xCols : List String)
    (xRows : List (String × Int)) (uidDates : List (String × Int)) (freq : Int)
    (horizon : Nat) : Except XdfError Unit :=
  if ¬ (idCol ∈ xCols ∧ timeCol ∈ xCols) then .error .missingIdTime
  else if xCols.length < 3 then .error .noExogenous
  else if ¬ (commonCols idCol timeCol staticCols xCols).isEmpty then .error .staticConflict
  else if (xRows.filter (inForecastWindow uidDates freq horizon)).length
      ≠ uidDates.length * horizon then .error .missingRows
  else .ok ()

/-- The shape of `TimeSeries.predict` around the validation
(src/mlforecast/core.py:569-618): the validation runs first and only when it
passes is the forecasting loop (`run`) entered. -/
def predictWithXdf (idCol timeCol : String) (staticCols xCols : List String)
    (xRows : List (String × Int)) (uidDates : List (String × Int)) (freq : Int)
    (horizon : Nat) (run : Unit → Option (List (List Val))) :
    Except XdfError (Option (List (List Val))) :=
  match validatePredXdf idCol timeCol staticCols xCols xRows uidDates freq horizon with
  | .error e => .error e
  | .ok _ => .ok (run ())

/-! ## Frequency handling in `TimeSeries._fit` -/

/-- `self.freq` after `__init__`: an integer or a pandas offset (modelled by
its string code). -/
inductive FreqV where
  | int : Int → FreqV
  | offset : String → FreqV
deriving DecidableEq

/-- Embedding of the frequency check in `TimeSeries._fit`
(src/mlforecast/core.py:202-210): a datetime time column with `freq == 1`
raises; a non-datetime (integer) time column with `freq != 1` warns and
resets the frequency to 1.  Returns the resulting frequency and whether a
warning was emitted. -/
def fitFreqCheck (timeIsDatetime : Bool) (freq : FreqV) : Except String (FreqV × Bool) :=
  if timeIsDatetime then
    if freq = .int 1 then
      .error "Must set frequency when using a timestamp type column."
    else .ok (freq, false)
  else
    if freq ≠ .int 1 then .ok (.int 1, true)
    else .ok (freq, false)

/-! # Theorems -/

example : nameModels ["f_lag1", "f_lag1"] = ["f_lag1", "f_lag12"] := by decide
example : nameModels ["a", "a", "a"] = ["a", "a2", "a3"] := by decide
example : nameModels ["a", "b", "a"] = ["a", "b", "a2"] := by decide

/-! ### Characterising `_name_models`

Processing `reversed(current_names)` with the running counter is equivalent to
renaming each element according to the number of occurrences of it in the
prefix up to its position (the `m`-th occurrence of `x` gets suffix `m` when
`m ≥ 2`). -/

theorem nameRev_length (r : List String) : (nameRev r).length = r.length := by
  induction r with
  | nil => rfl
  | cons x rest ih => simp [nameRev, ih]

theorem nameModelsGo_eq_nameRev :
    ∀ (r : List String) (ctr : String → Nat),
      (∀ x ∈ r, ctr x = r.count x) → nameModelsGo r ctr = nameRev r := by
  intro r
  induction r with
  | nil => intro ctr _; rfl
  | cons x rest ih =>
    intro ctr hctr
    have hx : ctr x = rest.count x + 1 := by
      have := hctr x (by simp)
      simpa [List.count_cons] using this
    by_cases hrest : rest.count x = 0
    · have hc : ¬ ctr x > 1 := by omega
      have hrec : nameModelsGo rest ctr = nameRev rest := by
        apply ih
        intro y hy
        have hyx : y ≠ x := by
          intro h; subst h
          exact absurd (List.count_eq_zero.mp hrest) (fun hnot => hnot hy)
        have := hctr y (by simp [hy])
        simpa [List.count_cons, hyx] using this
      simp only [nameModelsGo, if_neg hc, nameRev, hrest, if_pos trivial, hrec]
    · have hc : ctr x > 1 := by omega
      have hrec :
          (nameModelsGo rest fun y => if y = x then ctr x - 1 else ctr y) = nameRev rest := by
        apply ih
        intro y hy
        by_cases hyx : y = x
        · subst hyx
          rw [if_pos rfl]
          omega
        · simp only [if_neg hyx]
          have := hctr y (by simp [hy])
          simpa [List.count_cons, hyx] using this
      rw [hx] at hrec
      have hc' : rest.count x + 1 > 1 := by omega
      simp only [nameModelsGo, nameRev, hx, if_pos hc', if_neg hrest, hrec]

theorem coreNames_length (l : List String) : (coreNames l).length = l.length := by
  simp [coreNames, nameRev_length]

theorem coreNames_concat (l : List String) (x : String) :
    coreNames (l ++ [x]) =
      coreNames l ++ [if l.count x = 0 then x else x ++ toString (l.count x + 1)] := by
  simp [coreNames, nameRev, List.count_reverse]

theorem coreNames_getD (l : List String) :
    ∀ k, k < l.length → (coreNames l).getD k "" = specName l k := by
  induction l using List.reverseRecOn with
  | nil => intro k hk; simp at hk
  | append_singleton l x ih =>
    intro k hk
    rw [coreNames_concat]
    rcases Nat.lt_or_ge k l.length with hlt | hge
    · rw [List.getD_append _ _ _ _ (by rw [coreNames_length]; exact hlt)]
      rw [ih k hlt]
      have htake : (l ++ [x]).take (k + 1) = l.take (k + 1) :=
        List.take_append_of_le_length (by omega)
      have hgetD : (l ++ [x]).getD k "" = l.getD k "" :=
        List.getD_append _ _ _ _ hlt
      simp only [specName, htake, hgetD]
    · have hk' : k = l.length := by
        have : k < l.length + 1 := by simpa using hk
        omega
      subst hk'
      rw [List.getD_append_right _ _ _ _ (by rw [coreNames_length])]
      rw [coreNames_length]
      simp only [Nat.sub_self, List.getD_cons_zero]
      have hgetD : (l ++ [x]).getD l.length "" = x := by
        rw [List.getD_append_right _ _ _ _ le_rfl]
        simp
      have htake : (l ++ [x]).take (l.length + 1) = l ++ [x] := by
        apply List.take_of_length_le
        simp
      simp only [specName, hgetD, htake, List.count_append]
      have hcx : List.count x [x] = 1 := by simp
      rw [hcx]
      by_cases h0 : l.count x = 0
      · simp [h0]
      · have h1 : ¬ l.count x + 1 ≤ 1 := by omega
        simp [h0, h1]

theorem nameModels_length (l : List String) : (nameModels l).length = l.length := by
  unfold nameModels
  split_ifs with h0 h1
  · simp [List.isEmpty_iff.mp h0]
  · rfl
  · rw [List.length_reverse, nameModelsGo_eq_nameRev _ _ ?_, nameRev_length,
      List.length_reverse]
    intro x _
    exact (List.count_reverse x l).symm

theorem nameModels_getD (l : List String) (k : Nat) (hk : k < l.length) :
    (nameModels l).getD k "" = specName l k := by
  unfold nameModels
  split_ifs with h0 h1
  · rw [List.isEmpty_iff.mp h0] at hk
    simp at hk
  · -- no repetitions anywhere: every prefix count is 1, so every name stays bare
    have hx : l.getD k "" = l[k] := List.getD_eq_getElem l "" hk
    have hlen : k < (l.take (k + 1)).length := by
      rw [List.length_take]
      omega
    have hmem : l[k] ∈ l.take (k + 1) := by
      have htk : (l.take (k + 1))[k] = l[k] := List.getElem_take l
      rw [← htk]
      exact List.getElem_mem hlen
    have hpos : 0 < (l.take (k + 1)).count l[k] :=
      List.count_pos_iff.mpr hmem
    have hle : (l.take (k + 1)).count l[k] ≤ l.count l[k] :=
      (List.take_sublist _ _).count_le _
    have hsmall : l.count l[k] < 2 := by
      have h := List.all_eq_true.mp h1 _ (List.getElem_mem hk)
      exact of_decide_eq_true h
    simp only [specName, hx]
    rw [if_pos (by omega)]
  · -- repeated names: the reversed-counter loop computes the prefix-count rule
    have hgo :
        nameModelsGo l.reverse (fun x => l.count x) = nameRev l.reverse := by
      apply nameModelsGo_eq_nameRev
      intro x _
      exact (List.count_reverse x l).symm
    rw [hgo]
    exact coreNames_getD l k hk

/-- **C1** counterexample.  The claim that registering `(lag=1, f)` twice
yields the two feature names `f_lag1` and `f_lag1_2` is false on the code:
the registry built by `TimeSeries.__init__` is keyed by name, so the second
registration silently overwrites the first and only `f_lag1` is registered;
and the renaming helper `_name_models` appends the occurrence count with no
separator, producing `f_lag12`, never `f_lag1_2`. -/
theorem name_collision_claim_counterexample :
    ((buildTransforms [] [(1, [(⟨"f", []⟩, []), (⟨"f", []⟩, [])])]).map Prod.fst
        = ["f_lag1"]) ∧
    nameModels ["f_lag1", "f_lag1"] = ["f_lag1", "f_lag12"] ∧
    nameModels ["f_lag1", "f_lag1"] ≠ ["f_lag1", "f_lag1_2"] := by
  refine ⟨by decide, by decide, by decide⟩

/-- **C1** (amended).  `_name_models` resolves collisions by the backward
count rule: the entry at position `k` keeps its bare name when it is the
first occurrence of that name in the prefix through `k`, and otherwise gets
the occurrence number (2, 3, …) appended directly, with no separator
(`f_lag1`, `f_lag12`).  The transforms registry built by
`TimeSeries.__init__`, however, never invokes this helper: it is keyed by
name, so a duplicate registration such as `(lag=1, f)` twice yields the
single feature name `f_lag1`. -/
theorem name_collision_resolution (l : List String) (k : Nat) (hk : k < l.length) :
    (nameModels l).length = l.length ∧
    (nameModels l).getD k "" = specName l k ∧
    (buildTransforms [] [(1, [(⟨"f", []⟩, []), (⟨"f", []⟩, [])])]).map Prod.fst
      = ["f_lag1"] :=
  ⟨nameModels_length l, nameModels_getD l k hk, by decide⟩

/-- Witness for **C1**: the amended theorem applied at `["a", "a", "a"]`,
position 2 — whose name evaluates to `a3`. -/
theorem name_collision_resolution_witness :
    2 < (["a", "a", "a"] : List String).length ∧
    ((nameModels ["a", "a", "a"]).length = (["a", "a", "a"] : List String).length ∧
      (nameModels ["a", "a", "a"]).getD 2 "" = specName ["a", "a", "a"] 2 ∧
      (buildTransforms [] [(1, [(⟨"f", []⟩, []), (⟨"f", []⟩, [])])]).map Prod.fst
        = ["f_lag1"]) :=
  ⟨by decide, name_collision_resolution ["a", "a", "a"] 2 (by decide)⟩

/-! ### The transform engine -/

theorem odInsert_fresh {α : Type} (acc : List (String × α)) (k : String) (v : α)
    (hfresh : ∀ q ∈ acc, q.1 ≠ k) : odInsert acc k v = acc ++ [(k, v)] := by
  have hany : (acc.any fun p => decide (p.1 = k)) = false := by
    rw [List.any_eq_false]
    intro p hp
    simpa using hfresh p hp
  simp only [odInsert, hany, Bool.false_eq_true, if_false]

theorem collectResults_all_ok {E B : Type} :
    ∀ (tasks : List (String × Except E B)) (acc : List (String × B)),
      (∀ p ∈ tasks, ∃ v, p.2 = .ok v) →
      (∀ p ∈ tasks, ∀ q ∈ acc, q.1 ≠ p.1) →
      (tasks.map Prod.fst).Nodup →
      collectResults tasks acc = .ok (acc ++ okResults tasks) := by
  intro tasks
  induction tasks with
  | nil => intro acc _ _ _; simp [collectResults, okResults]
  | cons p rest ih =>
    intro acc hok hfresh hnodup
    obtain ⟨v, hv⟩ := hok p (by simp)
    obtain ⟨n, e⟩ := p
    simp only at hv
    subst hv
    simp only [collectResults]
    rw [odInsert_fresh acc n v (fun q hq => hfresh (n, .ok v) (by simp) q hq)]
    rw [ih (acc ++ [(n, v)]) (fun q hq => hok q (by simp [hq]))
      ?_ (by simpa using hnodup.of_cons)]
    · simp [okResults]
    · intro q hq r hr
      rcases List.mem_append.mp hr with hr | hr
      · exact hfresh q (by simp [hq]) r hr
      · simp only [List.mem_singleton] at hr
        subst hr
        simp only [List.map_cons, List.nodup_cons] at hnodup
        intro hcontra
        simp only at hcontra
        exact hnodup.1 (by rw [hcontra]; exact List.mem_map_of_mem Prod.fst hq)

theorem alookup_perm {α : Type} {l₁ l₂ : List (String × α)} (h : l₁.Perm l₂) :
    (l₁.map Prod.fst).Nodup → ∀ k, alookup k l₁ = alookup k l₂ := by
  induction h with
  | nil => intro _ k; rfl
  | cons x _ ih =>
    intro nd k
    simp only [List.map_cons, List.nodup_cons] at nd
    simp only [alookup]
    rw [ih nd.2 k]
  | swap x y rest =>
    intro nd k
    simp only [List.map_cons, List.nodup_cons, List.mem_cons, not_or] at nd
    have hyx : y.1 ≠ x.1 := nd.1.1
    simp only [alookup]
    by_cases hy : y.1 = k
    · have hx : ¬ x.1 = k := fun hc => hyx (hy.trans hc.symm)
      rw [if_pos hy, if_neg hx, if_pos hy]
    · by_cases hx : x.1 = k
      · rw [if_neg hy, if_pos hx, if_pos hx]
      · rw [if_neg hy, if_neg hx, if_neg hx, if_neg hy]
  | trans h₁ h₂ ih₁ ih₂ =>
    intro nd k
    rw [ih₁ nd k, ih₂ (((h₁.map Prod.fst).nodup_iff).mp nd) k]

theorem okResults_fst_sublist {E B : Type} (tasks : List (String × Except E B)) :
    ((okResults tasks).map Prod.fst).Sublist (tasks.map Prod.fst) := by
  induction tasks with
  | nil => simp [okResults]
  | cons p rest ih =>
    obtain ⟨n, e⟩ := p
    cases e with
    | ok v =>
      simp only [okResults, List.filterMap_cons, List.map_cons]
      exact ih.cons₂ n
    | error e =>
      simp only [okResults, List.filterMap_cons, List.map_cons]
      exact ih.cons n

/-- **C2**.  On the same grouped array and the same registry, the sequential
transform application and the multithreaded one — whose tasks complete in an
arbitrary permutation of the registration order — agree: both succeed when
every transform succeeds, and the resulting dicts assign the same output
buffer to every feature name. -/
theorem seq_mt_transforms_agree (gs : List (List Val)) (updatesOnly : Bool)
    (transforms completionOrder : List (String × TfmSpec))
    (hperm : completionOrder.Perm transforms)
    (hnodup : (transforms.map Prod.fst).Nodup)
    (hok : ∀ p ∈ transforms, ∃ v, (taskOf gs updatesOnly p).2 = .ok v) :
    ∃ outSeq outMT,
      applyTransforms gs updatesOnly transforms = .ok outSeq ∧
      applyTransformsMT gs updatesOnly completionOrder = .ok outMT ∧
      ∀ name, alookup name outMT = alookup name outSeq := by
  have hkeys : ∀ (l : List (String × TfmSpec)),
      (l.map (taskOf gs updatesOnly)).map Prod.fst = l.map Prod.fst := by
    intro l
    rw [List.map_map]
    rfl
  have htasksperm : (completionOrder.map (taskOf gs updatesOnly)).Perm
      (transforms.map (taskOf gs updatesOnly)) := hperm.map _
  have hnodup₁ : ((transforms.map (taskOf gs updatesOnly)).map Prod.fst).Nodup := by
    rw [hkeys]
    exact hnodup
  have hnodup₂ : ((completionOrder.map (taskOf gs updatesOnly)).map Prod.fst).Nodup :=
    ((htasksperm.map Prod.fst).nodup_iff).mpr hnodup₁
  have hok₁ : ∀ q ∈ transforms.map (taskOf gs updatesOnly), ∃ v, q.2 = .ok v := by
    intro q hq
    obtain ⟨p, hp, rfl⟩ := List.mem_map.mp hq
    exact hok p hp
  have hok₂ : ∀ q ∈ completionOrder.map (taskOf gs updatesOnly), ∃ v, q.2 = .ok v :=
    fun q hq => hok₁ q (htasksperm.mem_iff.mp hq)
  refine ⟨okResults (transforms.map (taskOf gs updatesOnly)),
    okResults (completionOrder.map (taskOf gs updatesOnly)), ?_, ?_, ?_⟩
  · have h := collectResults_all_ok (transforms.map (taskOf gs updatesOnly)) []
      hok₁ (by intro p _ q hq; simp at hq) hnodup₁
    simpa [applyTransforms] using h
  · have h := collectResults_all_ok (completionOrder.map (taskOf gs updatesOnly)) []
      hok₂ (by intro p _ q hq; simp at hq) hnodup₂
    simpa [applyTransformsMT] using h
  · intro name
    exact alookup_perm (htasksperm.filterMap _)
      ((okResults_fst_sublist _).nodup hnodup₂) name

/-- Witness for **C2**: two identity-lag transforms over two series, with the
completion order reversed. -/
theorem seq_mt_transforms_agree_witness :
    ([lagEntry 2, lagEntry 1].Perm [lagEntry 1, lagEntry 2]) ∧
    (([lagEntry 1, lagEntry 2].map Prod.fst).Nodup) ∧
    (∃ outSeq outMT,
      applyTransforms [[some 1, some 2], [some 3]] false [lagEntry 1, lagEntry 2]
        = .ok outSeq ∧
      applyTransformsMT [[some 1, some 2], [some 3]] false [lagEntry 2, lagEntry 1]
        = .ok outMT ∧
      ∀ name, alookup name outMT = alookup name outSeq) := by
  refine ⟨List.Perm.swap _ _ _, by decide, ?_⟩
  apply seq_mt_transforms_agree [[some 1, some 2], [some 3]] false
    [lagEntry 1, lagEntry 2] [lagEntry 2, lagEntry 1]
    (List.Perm.swap _ _ _) (by decide)
  intro p hp
  simp only [List.mem_cons, List.not_mem_nil, or_false] at hp
  rcases hp with rfl | rfl
  · exact ⟨_, rfl⟩
  · exact ⟨_, rfl⟩

theorem collectResults_first_error {E B : Type} :
    ∀ (tasks : List (String × Except E B)) (acc : List (String × B)),
      (∃ p ∈ tasks, ∃ e, p.2 = .error e) →
      ∃ e, collectResults tasks acc = .error e ∧ ∃ p ∈ tasks, p.2 = .error e := by
  intro tasks
  induction tasks with
  | nil =>
    intro acc h
    obtain ⟨p, hp, _⟩ := h
    simp at hp
  | cons p rest ih =>
    intro acc hfail
    obtain ⟨n, e⟩ := p
    cases e with
    | ok v =>
      have hrest : ∃ q ∈ rest, ∃ e, q.2 = .error e := by
        obtain ⟨q, hq, e, he⟩ := hfail
        rcases List.mem_cons.mp hq with rfl | hq2
        · simp at he
        · exact ⟨q, hq2, e, he⟩
      obtain ⟨e, hres, q, hq, he⟩ := ih (odInsert acc n v) hrest
      exact ⟨e, by simpa [collectResults] using hres, q, by simp [hq], he⟩
    | error e =>
      exact ⟨e, rfl, (n, .error e), by simp, rfl⟩

/-- **C7** counterexample.  The error that aborts a multithreaded transform
run is the failing transform's own exception, not annotated with the feature
name: two registries whose failing transforms have different names produce
byte-identical errors, so the reported error cannot identify the failing
feature's name. -/
theorem mt_error_unnamed_counterexample :
    applyTransformsMT [[some 1]] false [("feat_a", erroringTfm "boom")]
      = .error "boom" ∧
    applyTransformsMT [[some 1]] false [("feat_b", erroringTfm "boom")]
      = .error "boom" ∧
    ("feat_a" : String) ≠ "feat_b" :=
  ⟨rfl, rfl, by decide⟩

/-- **C7** (amended).  When some transform of the registry fails, the
multithreaded run — whatever completion order its tasks take — fails as a
whole with a single error, namely the raw exception of one failing transform
(not annotated with the feature name), and returns no partial results. -/
theorem mt_failure_propagation (gs : List (List Val)) (updatesOnly : Bool)
    (transforms completionOrder : List (String × TfmSpec))
    (hperm : completionOrder.Perm transforms)
    (hfail : ∃ p ∈ transforms, ∃ e, (taskOf gs updatesOnly p).2 = .error e) :
    ∃ e, applyTransformsMT gs updatesOnly completionOrder = .error e ∧
      ∃ p ∈ transforms, (taskOf gs updatesOnly p).2 = .error e := by
  have hfail2 : ∃ q ∈ completionOrder.map (taskOf gs updatesOnly), ∃ e, q.2 = .error e := by
    obtain ⟨p, hp, e, he⟩ := hfail
    exact ⟨taskOf gs updatesOnly p,
      List.mem_map_of_mem _ (hperm.mem_iff.mpr hp), e, he⟩
  obtain ⟨e, hres, q, hq, he⟩ := collectResults_first_error _ [] hfail2
  refine ⟨e, hres, ?_⟩
  obtain ⟨p, hp, rfl⟩ := List.mem_map.mp hq
  exact ⟨p, hperm.mem_iff.mp hp, he⟩

/-- Witness for **C7**: a registry of one sound lag and one failing
transform, consumed in reversed completion order. -/
theorem mt_failure_propagation_witness :
    ([("bad", erroringTfm "boom"), lagEntry 1].Perm
      [lagEntry 1, ("bad", erroringTfm "boom")]) ∧
    (∃ e, applyTransformsMT [[some 1]] false
        [("bad", erroringTfm "boom"), lagEntry 1] = .error e ∧
      ∃ p ∈ [lagEntry 1, ("bad", erroringTfm "boom")],
        (taskOf [[some 1]] false p).2 = .error e) :=
  ⟨List.Perm.swap _ _ _,
    mt_failure_propagation [[some 1]] false _ _ (List.Perm.swap _ _ _)
      ⟨("bad", erroringTfm "boom"), by simp, "boom", rfl⟩⟩

theorem mapM_ok {E A B : Type} (f : A → B) :
    ∀ l : List A, (l.mapM (fun a => (Except.ok (f a) : Except E B))) = .ok (l.map f) := by
  intro l
  induction l with
  | nil => rfl
  | cons a rest ih =>
    rw [List.mapM_cons, ih]
    rfl

theorem shiftArray_zero (s : List Val) : shiftArray 0 s = s := by
  simp [shiftArray]

theorem zipWith_append_getLastD :
    ∀ (gs : List (List Val)) (vs : List Val), vs.length = gs.length →
      (List.zipWith (fun g v => g ++ [v]) gs vs).map (fun g => g.getLastD nan) = vs := by
  intro gs
  induction gs with
  | nil =>
    intro vs hv
    rw [List.length_eq_zero.mp hv]
    rfl
  | cons g rest ih =>
    intro vs hv
    cases vs with
    | nil => simp at hv
    | cons v vrest =>
      simp only [List.zipWith_cons_cons, List.map_cons]
      rw [ih vrest (by simpa using hv)]
      congr 1
      simp [List.getLastD_eq_getLast?, List.getLast?_concat]

/-- **C5**.  In updates-only mode every registered transform is evaluated by
`transform_series` at lag `L - 1` (one less than in full-history mode), one
value per group; consequently, appending `values` and then computing the
updates-only `lag1` identity feature returns exactly the just-appended
values. -/
theorem updates_only_lag_adjust (gs gs2 : List (List Val)) (vs : List Val)
    (name : String) (L : Nat)
    (fn : List Int → List Val → Except String (List Val)) (args : List Int)
    (happend : appendGA gs vs = some gs2) :
    applyTransforms gs true [(name, ⟨L, fn, args⟩)]
      = collectResults [(name, transformSeries gs true (L - 1) fn args)] [] ∧
    applyTransforms gs2 true [lagEntry 1] = .ok [("lag1", vs)] := by
  constructor
  · rfl
  · unfold appendGA at happend
    split_ifs at happend with hlen
    · obtain rfl : List.zipWith (fun g v => g ++ [v]) gs vs = gs2 :=
        Option.some_injective _ happend
      show collectResults [("lag1",
        transformSeries (List.zipWith (fun g v => g ++ [v]) gs vs) true 0 identityFn [])] []
          = .ok [("lag1", vs)]
      have hts : transformSeries (List.zipWith (fun g v => g ++ [v]) gs vs) true 0
          identityFn [] = .ok vs := by
        have hlist :
            ((List.zipWith (fun g v => g ++ [v]) gs vs).map (fun g => shiftArray 0 g)).map
              (fun o => List.getLastD o nan) = vs := by
          rw [List.map_map]
          have hcongr :
              ((fun o => List.getLastD o nan) ∘ fun g => shiftArray 0 g)
                = fun g => List.getLastD g nan := by
            funext g
            simp [shiftArray_zero]
          rw [hcongr]
          exact zipWith_append_getLastD gs vs hlen
        unfold transformSeries identityFn
        rw [if_pos rfl, mapM_ok (fun g => shiftArray 0 g)]
        exact congrArg Except.ok hlist
      rw [hts]
      rfl

/-- Witness for **C5**: appending `[7, 8]` to two one-point series and
reading the updates-only `lag1` identity feature gives back `[7, 8]`. -/
theorem updates_only_lag_adjust_witness :
    appendGA [[some 1], [some 2]] [some 7, some 8]
      = some [[some 1, some 7], [some 2, some 8]] ∧
    (applyTransforms [[some 1], [some 2]] true [("f_lag3", ⟨3, identityFn, []⟩)]
      = collectResults
          [("f_lag3", transformSeries [[some 1], [some 2]] true (3 - 1) identityFn [])] [] ∧
    applyTransforms [[some 1, some 7], [some 2, some 8]] true [lagEntry 1]
      = .ok [("lag1", [some 7, some 8])]) :=
  ⟨by decide,
    updates_only_lag_adjust [[some 1], [some 2]] [[some 1, some 7], [some 2, some 8]]
      [some 7, some 8] "f_lag3" 3 identityFn [] (by decide)⟩

/-! ### The recursive forecasting loop -/

theorem appendGA_some (gs : List (List Val)) (vs : List Val) (h : vs.length = gs.length) :
    appendGA gs vs = some (List.zipWith (fun g v => g ++ [v]) gs vs) := by
  simp [appendGA, h]

theorem zipWith_append_length (gs : List (List Val)) (vs : List Val)
    (h : vs.length = gs.length) :
    (List.zipWith (fun g v => g ++ [v]) gs vs).length = gs.length := by
  simp [List.length_zipWith, h]

theorem zipWith_append_getD (gs : List (List Val)) (vs : List Val)
    (h : vs.length = gs.length) (i : Nat) (hi : i < gs.length) :
    (List.zipWith (fun g v => g ++ [v]) gs vs).getD i []
      = gs.getD i [] ++ [vs.getD i nan] := by
  have hiz : i < (List.zipWith (fun g v => g ++ [v]) gs vs).length := by
    rw [zipWith_append_length gs vs h]
    exact hi
  have hiv : i < vs.length := by omega
  rw [List.getD_eq_getElem _ _ hiz, List.getD_eq_getElem _ _ hi, List.getD_eq_getElem _ _ hiv]
  exact List.getElem_zipWith

theorem runSteps_frame (m : Model) (cb : Option (List Val → List Val))
    (hsize : ∀ gs, (applyAfterCb cb (m gs)).length = gs.length) :
    ∀ (h : Nat) (st : PredictState),
      ∃ st2, runSteps m cb h st = some st2 ∧
        st2.gt = st.gt ∧
        st2.ga.length = st.ga.length ∧
        ∀ i, i < st.ga.length →
          (st2.ga.getD i []).length = (st.ga.getD i []).length + h := by
  intro h
  induction h with
  | zero =>
    intro st
    exact ⟨st, rfl, rfl, rfl, fun i _ => rfl⟩
  | succ hh ih =>
    intro st
    have hlen : (applyAfterCb cb (m st.ga)).length = st.ga.length := hsize st.ga
    have happ : appendGA st.ga (applyAfterCb cb (m st.ga))
        = some (List.zipWith (fun g v => g ++ [v]) st.ga (applyAfterCb cb (m st.ga))) :=
      appendGA_some _ _ hlen
    obtain ⟨st2, hrun, hgt, hlen2, hgrow⟩ := ih
      ⟨st.gt, List.zipWith (fun g v => g ++ [v]) st.ga (applyAfterCb cb (m st.ga)),
        st.yPred ++ [applyAfterCb cb (m st.ga)]⟩
    refine ⟨st2, ?_, hgt, ?_, ?_⟩
    · show stepOnce m cb st >>= runSteps m cb hh = some st2
      simp only [stepOnce]
      rw [happ]
      simpa using hrun
    · rw [hlen2]
      exact zipWith_append_length st.ga _ hlen
    · intro i hi
      have hi2 : i < (List.zipWith (fun g v => g ++ [v]) st.ga
          (applyAfterCb cb (m st.ga))).length := by
        rw [zipWith_append_length st.ga _ hlen]
        exact hi
      have := hgrow i hi2
      rw [this, zipWith_append_getD st.ga _ hlen i hi]
      simp
      omega

/-- **C3**.  A recursive `predict` over any non-empty models dict, any
horizon `h` and any callbacks leaves the ground-truth grouped array
untouched, and the final working copy — restored from the ground truth by
`_predict_setup` at the start of each model's simulation — has exactly `h`
values appended to every active series. -/
theorem recursive_predict_frame (gt : List (List Val)) (idxs : Option (List Nat))
    (keepLastN : Option Nat) (cb : Option (List Val → List Val)) (h : Nat) :
    ∀ (models : List Model), models ≠ [] →
      (∀ m ∈ models, ∀ gs, (applyAfterCb cb (m gs)).length = gs.length) →
      ∃ st cols, predictRecursive gt idxs keepLastN cb h models = some (st, cols) ∧
        st.gt = gt ∧
        st.ga.length = (predictSetup gt idxs keepLastN).length ∧
        ∀ i, i < (predictSetup gt idxs keepLastN).length →
          (st.ga.getD i []).length
            = ((predictSetup gt idxs keepLastN).getD i []).length + h := by
  intro models
  induction models with
  | nil => intro hne _; exact absurd rfl hne
  | cons m rest ih =>
    intro _ hsizes
    cases rest with
    | nil =>
      obtain ⟨st2, hrun, hgt, hlen, hgrow⟩ :=
        runSteps_frame m cb (hsizes m (by simp)) h
          ⟨gt, predictSetup gt idxs keepLastN, []⟩
      exact ⟨st2, [ravelF st2.yPred],
        by simp [predictRecursive, runModel, hrun], hgt, hlen, hgrow⟩
    | cons m2 rest2 =>
      obtain ⟨st1, hrun1, _⟩ :=
        runSteps_frame m cb (hsizes m (by simp)) h
          ⟨gt, predictSetup gt idxs keepLastN, []⟩
      obtain ⟨st, cols, hrec, hgt, hlen, hgrow⟩ :=
        ih (by simp) (fun mm hmm => hsizes mm (by simp [hmm]))
      refine ⟨st, ravelF st1.yPred :: cols, ?_, hgt, hlen, hgrow⟩
      simp [predictRecursive, runModel, hrun1, hrec]

/-- Witness for **C3**: a constant-zero model over two series, horizon 2 —
each group grows from its setup length by exactly 2 and the ground truth is
returned unchanged. -/
theorem recursive_predict_frame_witness :
    ([fun gs => List.replicate gs.length (some 0)] : List Model) ≠ [] ∧
    (∃ st cols,
      predictRecursive [[some 1], [some 2, some 3]] none none none 2
        [fun gs => List.replicate gs.length (some 0)] = some (st, cols) ∧
      st.gt = [[some 1], [some 2, some 3]] ∧
      st.ga.length = (predictSetup [[some 1], [some 2, some 3]] none none).length ∧
      ∀ i, i < (predictSetup [[some 1], [some 2, some 3]] none none).length →
        (st.ga.getD i []).length
          = ((predictSetup [[some 1], [some 2, some 3]] none none).getD i []).length + 2) := by
  constructor
  · simp
  · apply recursive_predict_frame [[some 1], [some 2, some 3]] none none none 2
      [fun gs => List.replicate gs.length (some 0)] (by simp)
    intro m hm gs
    rcases List.mem_singleton.mp hm with rfl
    simp [applyAfterCb]

/-- **C10**.  With `max_horizon` set, `predict` dispatches to
`_predict_multi`, which is not passed the `after_predict_callback` at all:
the dispatch result is the direct path's raw per-horizon model outputs,
independent of any supplied callback.  On the recursive path the callback is
applied to every step's predictions: running with callback `f` is the same
as running the model post-composed with `f`. -/
theorem after_callback_ignored_in_direct_mode :
    (∀ (mh : Nat) (gt : List (List Val)) (idxs : Option (List Nat))
        (keepLastN : Option Nat) (models : List Model) (multiModels : List MultiModel)
        (cb cb2 : Option (List Val → List Val)) (h : Nat),
      predictDispatch (some mh) gt idxs keepLastN models multiModels cb h
        = predictDispatch (some mh) gt idxs keepLastN models multiModels cb2 h ∧
      predictDispatch (some mh) gt idxs keepLastN models multiModels cb h
        = predictMulti gt idxs keepLastN h mh multiModels) ∧
    (∀ (m : Model) (f : List Val → List Val) (h : Nat) (st : PredictState),
      runSteps m (some f) h st = runSteps (fun gs => f (m gs)) none h st) := by
  constructor
  · intro mh gt idxs kln models multis cb cb2 h
    exact ⟨rfl, rfl⟩
  · intro m f h
    induction h with
    | zero => intro st; rfl
    | succ hh ih =>
      intro st
      show stepOnce m (some f) st >>= runSteps m (some f) hh
          = stepOnce (fun gs => f (m gs)) none st >>= runSteps (fun gs => f (m gs)) none hh
      have hstep : stepOnce m (some f) st = stepOnce (fun gs => f (m gs)) none st := rfl
      rw [hstep]
      cases hres : stepOnce (fun gs => f (m gs)) none st with
      | none => rfl
      | some st1 => simpa using ih st1

/-! ### Frequency handling -/

/-- **C9**.  Fitting with an integer (non-datetime) time column and a
configured frequency other than 1 does not fail: it warns and permanently
resets the frequency to 1; the missing-frequency error is raised only for
datetime time columns (with `freq == 1`). -/
theorem int_time_col_resets_freq (freq : FreqV) :
    (freq ≠ .int 1 → fitFreqCheck false freq = .ok (.int 1, true)) ∧
    (fitFreqCheck false (.int 1) = .ok (.int 1, false)) ∧
    (∀ dt : Bool, (∃ e, fitFreqCheck dt freq = .error e) ↔ (dt = true ∧ freq = .int 1)) := by
  refine ⟨?_, rfl, ?_⟩
  · intro hne
    simp [fitFreqCheck, hne]
  · intro dt
    constructor
    · rintro ⟨e, he⟩
      cases dt
      · by_cases h1 : freq = .int 1 <;> simp [fitFreqCheck, h1] at he
      · by_cases h1 : freq = .int 1
        · exact ⟨rfl, h1⟩
        · simp [fitFreqCheck, h1] at he
    · rintro ⟨rfl, rfl⟩
      exact ⟨_, rfl⟩

/-- Witness for **C9**: an integer time column with configured `freq = 5`
fits without error, warns, and ends with `freq = 1`. -/
theorem int_time_col_resets_freq_witness :
    (FreqV.int 5 ≠ FreqV.int 1) ∧ fitFreqCheck false (.int 5) = .ok (.int 1, true) :=
  ⟨by decide, (int_time_col_resets_freq (.int 5)).1 (by decide)⟩

/-! ### Null-row filtering -/

theorem foldl_orMask_length :
    ∀ (fs : List (List Val)) (acc : List Bool), (∀ f ∈ fs, f.length = acc.length) →
      (fs.foldl (fun acc f => List.zipWith (fun a b => a || b) acc (f.map isnan)) acc).length
        = acc.length := by
  intro fs
  induction fs with
  | nil => intro acc _; rfl
  | cons f rest ih =>
    intro acc hf
    rw [List.foldl_cons]
    have hlen : (List.zipWith (fun a b => a || b) acc (f.map isnan)).length = acc.length := by
      simp [List.length_zipWith, hf f (by simp)]
    rw [ih _ ?_, hlen]
    intro f2 hf2
    rw [hlen]
    exact hf f2 (by simp [hf2])

theorem foldl_orMask_getD :
    ∀ (fs : List (List Val)) (acc : List Bool) (i : Nat), i < acc.length →
      (∀ f ∈ fs, f.length = acc.length) →
      (fs.foldl (fun acc f => List.zipWith (fun a b => a || b) acc (f.map isnan)) acc).getD i false
        = (acc.getD i false || fs.any (fun f => isnan (f.getD i nan))) := by
  intro fs
  induction fs with
  | nil => intro acc i hi _; simp
  | cons f rest ih =>
    intro acc i hi hf
    rw [List.foldl_cons]
    have hflen : f.length = acc.length := hf f (by simp)
    have hzlen : (List.zipWith (fun a b => a || b) acc (f.map isnan)).length = acc.length := by
      simp [List.length_zipWith, hflen]
    rw [ih _ i (by rw [hzlen]; exact hi) ?_]
    · have hif : i < f.length := by omega
      have hifm : i < (f.map isnan).length := by simpa using hif
      have hiz : i < (List.zipWith (fun a b => a || b) acc (f.map isnan)).length := by
        rw [hzlen]
        exact hi
      have hz : (List.zipWith (fun a b => a || b) acc (f.map isnan)).getD i false
          = (acc.getD i false || isnan (f.getD i nan)) := by
        rw [List.getD_eq_getElem _ _ hiz, List.getD_eq_getElem _ _ hi,
          List.getD_eq_getElem _ _ hif, List.getElem_zipWith, List.getElem_map]
      rw [hz]
      simp [Bool.or_assoc]
    · intro f2 hf2
      rw [hzlen]
      exact hf f2 (by simp [hf2])

theorem featureNulls_getD (features : List (List Val)) (n i : Nat) (hi : i < n)
    (hf : ∀ f ∈ features, f.length = n) :
    (featureNulls n features).getD i false = rowHasNullFeature features i := by
  unfold featureNulls rowHasNullFeature
  rw [foldl_orMask_getD features (List.replicate n false) i (by simpa using hi)
    (by intro f hfm; simpa using hf f hfm)]
  have hrep : (List.replicate n false).getD i false = false := by
    rw [List.getD_eq_getElem _ _ (by simpa using hi)]
    simp
  rw [hrep]
  simp

theorem targetNulls_length (target : Target) :
    (targetNulls target).length = targetLength target := by
  cases target <;> simp [targetNulls, targetLength]

theorem featureNulls_length (features : List (List Val)) (n : Nat)
    (hf : ∀ f ∈ features, f.length = n) : (featureNulls n features).length = n := by
  unfold featureNulls
  rw [foldl_orMask_length features (List.replicate n false)
    (by intro f hfm; simpa using hf f hfm)]
  simp

theorem keepRows_getD (features : List (List Val)) (target : Target) (n i : Nat)
    (hi : i < n) (hf : ∀ f ∈ features, f.length = n) (ht : targetLength target = n) :
    (keepRows n features target).getD i false
      = !(rowHasNullFeature features i || (targetNulls target).getD i false) := by
  unfold keepRows
  have hfl : (featureNulls n features).length = n := featureNulls_length features n hf
  have htl : (targetNulls target).length = n := by rw [targetNulls_length, ht]
  have hiz : i < (List.zipWith (fun a b => !(a || b)) (featureNulls n features)
      (targetNulls target)).length := by
    rw [List.length_zipWith, hfl, htl]
    simpa using hi
  rw [List.getD_eq_getElem _ _ hiz, List.getElem_zipWith]
  rw [← List.getD_eq_getElem (featureNulls n features) false (by rw [hfl]; exact hi),
    ← List.getD_eq_getElem (targetNulls target) false (by rw [htl]; exact hi)]
  rw [featureNulls_getD features n i hi hf]

/-- **C4**.  Without `dropna` no row is removed.  With `dropna`, the rows
removed from the frame and from the target are exactly those failing the
keep-mask, and row `i` is kept iff no feature value at `i` is NaN and the
target at `i` is not null — where a matrix target row is null only when all
its horizons are null. -/
theorem dropna_row_filtering {α : Type} (df : List α) (features : List (List Val))
    (target : Target)
    (hf : ∀ f ∈ features, f.length = df.length)
    (ht : targetLength target = df.length) :
    transformDrop false df features target = (df, target) ∧
    transformDrop true df features target
      = (filterByMask (keepRows df.length features target) df,
         filterTarget (keepRows df.length features target) target) ∧
    (∀ i, i < df.length →
      (keepRows df.length features target).getD i false
        = !(rowHasNullFeature features i || (targetNulls target).getD i false)) ∧
    (∀ (t : List Val) (i : Nat), i < t.length →
      (targetNulls (.single t)).getD i false = isnan (t.getD i nan)) ∧
    (∀ (t : List (List Val)) (i : Nat), i < t.length →
      (targetNulls (.multi t)).getD i false = (t.getD i []).all isnan) := by
  refine ⟨rfl, rfl, ?_, ?_, ?_⟩
  · intro i hi
    exact keepRows_getD features target df.length i hi hf ht
  · intro t i hi
    rw [List.getD_eq_getElem _ _ (by simpa [targetNulls] using hi),
      List.getD_eq_getElem _ _ hi]
    simp [targetNulls]
  · intro t i hi
    rw [List.getD_eq_getElem _ _ (by simpa [targetNulls] using hi),
      List.getD_eq_getElem _ _ hi]
    simp [targetNulls]

/-- Witness for **C4**: three rows, one feature with a NaN in row 0, a single
target with a null in row 2 — the keep-mask evaluates row-by-row as claimed. -/
theorem dropna_row_filtering_witness :
    (∀ f ∈ [[nan, some 1, some 2]], f.length = ([0, 1, 2] : List Nat).length) ∧
    (transformDrop false [0, 1, 2] [[nan, some 1, some 2]] (.single [some 1, some 2, nan])
        = ([0, 1, 2], .single [some 1, some 2, nan]) ∧
      transformDrop true [0, 1, 2] [[nan, some 1, some 2]] (.single [some 1, some 2, nan])
        = (filterByMask (keepRows ([0, 1, 2] : List Nat).length [[nan, some 1, some 2]]
            (.single [some 1, some 2, nan])) [0, 1, 2],
           filterTarget (keepRows ([0, 1, 2] : List Nat).length [[nan, some 1, some 2]]
            (.single [some 1, some 2, nan])) (.single [some 1, some 2, nan])) ∧
      (∀ i, i < ([0, 1, 2] : List Nat).length →
        (keepRows ([0, 1, 2] : List Nat).length [[nan, some 1, some 2]]
            (.single [some 1, some 2, nan])).getD i false
          = !(rowHasNullFeature [[nan, some 1, some 2]] i
              || (targetNulls (.single [some 1, some 2, nan])).getD i false)) ∧
      (∀ (t : List Val) (i : Nat), i < t.length →
        (targetNulls (.single t)).getD i false = isnan (t.getD i nan)) ∧
      (∀ (t : List (List Val)) (i : Nat), i < t.length →
        (targetNulls (.multi t)).getD i false = (t.getD i []).all isnan)) :=
  ⟨by decide,
    dropna_row_filtering [0, 1, 2] [[nan, some 1, some 2]] (.single [some 1, some 2, nan])
      (by decide) (by decide)⟩

/-! ### `_expand_target` -/

theorem cumIndptr_exists_cons (gs : List (List Val)) : ∃ t, cumIndptr gs = 0 :: t := by
  cases gs with
  | nil => exact ⟨[], rfl⟩
  | cons g rest => exact ⟨(cumIndptr rest).map (fun o => o + g.length), rfl⟩

theorem cumIndptr_zip_cons (g : List Val) (gs : List (List Val)) :
    (cumIndptr (g :: gs)).zip (cumIndptr (g :: gs)).tail
      = (0, g.length) :: ((cumIndptr gs).zip (cumIndptr gs).tail).map
          (Prod.map (fun o => o + g.length) (fun o => o + g.length)) := by
  obtain ⟨t, ht⟩ := cumIndptr_exists_cons gs
  show (0 :: (cumIndptr gs).map (fun o => o + g.length)).zip
      ((0 :: (cumIndptr gs).map (fun o => o + g.length)).tail) = _
  rw [ht]
  simp only [List.map_cons, List.tail_cons, List.zip_cons_cons, Nat.zero_add]
  congr 1
  rw [show (g.length :: t.map (fun o => o + g.length))
      = (0 :: t).map (fun o => o + g.length) by simp]
  rw [List.zip_map]

theorem sliceArr_shift (g rest : List Val) (a b : Nat) :
    sliceArr (g ++ rest) (a + g.length) (b + g.length) = sliceArr rest a b := by
  unfold sliceArr
  have hdrop : (g ++ rest).drop (a + g.length) = rest.drop a := by
    rw [Nat.add_comm a g.length, List.drop_append]
  rw [hdrop]
  congr 1
  omega

theorem sliceArr_head (g rest : List Val) : sliceArr (g ++ rest) 0 g.length = g := by
  unfold sliceArr
  simp [List.take_left]

theorem expandTarget_flatten :
    ∀ (gs : List (List Val)) (H : Nat),
      expandTarget gs.flatten (cumIndptr gs) H
        = (gs.map (fun s => expandSerie s H)).flatten := by
  intro gs
  induction gs with
  | nil => intro H; rfl
  | cons g rest ih =>
    intro H
    unfold expandTarget
    rw [cumIndptr_zip_cons, List.map_cons, List.flatten_cons]
    have hhead : sliceArr ((g :: rest).flatten) 0 g.length = g := by
      rw [List.flatten_cons]
      exact sliceArr_head g rest.flatten
    rw [hhead]
    congr 1
    rw [List.map_map]
    have hmap :
        (((cumIndptr rest).zip (cumIndptr rest).tail).map
          ((fun pr : Nat × Nat =>
              expandSerie (sliceArr ((g :: rest).flatten) pr.1 pr.2) H) ∘
            Prod.map (fun o => o + g.length) (fun o => o + g.length)))
          = ((cumIndptr rest).zip (cumIndptr rest).tail).map
            (fun pr => expandSerie (sliceArr rest.flatten pr.1 pr.2) H) := by
      apply List.map_congr_left
      intro pr _
      obtain ⟨a, b⟩ := pr
      show expandSerie (sliceArr ((g :: rest).flatten) (a + g.length) (b + g.length)) H
        = expandSerie (sliceArr rest.flatten a b) H
      rw [List.flatten_cons, sliceArr_shift]
    rw [hmap]
    have hrest := ih H
    unfold expandTarget at hrest
    rw [hrest]

theorem expandSerie_getD (serie : List Val) (H j k : Nat)
    (hj : j < serie.length) (hk : k < H) :
    ((expandSerie serie H).getD j []).getD k nan
      = if j + k < serie.length then serie.getD (j + k) nan else nan := by
  have hjr : j < (List.range serie.length).length := by simpa using hj
  have hrow : (expandSerie serie H).getD j []
      = ((serie.drop j).take (min (serie.length - j) H))
        ++ List.replicate (H - min (serie.length - j) H) nan := by
    unfold expandSerie
    rw [List.getD_eq_getElem _ _ (by simpa using hj), List.getElem_map, List.getElem_range]
  rw [hrow]
  by_cases hku : k < min (serie.length - j) H
  · have hkd : k < ((serie.drop j).take (min (serie.length - j) H)).length := by
      rw [List.length_take, List.length_drop]
      omega
    rw [List.getD_append _ _ _ _ hkd]
    have hjk : j + k < serie.length := by omega
    rw [if_pos hjk]
    rw [List.getD_eq_getElem _ _ hkd, List.getD_eq_getElem _ _ hjk]
    rw [List.getElem_take, List.getElem_drop]
  · have hlen2 : ((serie.drop j).take (min (serie.length - j) H)).length
        = min (serie.length - j) H := by
      rw [List.length_take, List.length_drop]
      omega
    rw [List.getD_append_right _ _ _ _ (by omega)]
    have hjk : ¬ j + k < serie.length := by
      rcases Nat.le_total (serie.length - j) H with hcase | hcase
      · have hu : min (serie.length - j) H = serie.length - j := min_eq_left hcase
        omega
      · have hu : min (serie.length - j) H = H := min_eq_right hcase
        omega
    rw [if_neg hjk]
    have hkrep : k - ((serie.drop j).take (min (serie.length - j) H)).length
        < (List.replicate (H - min (serie.length - j) H) nan).length := by
      rw [hlen2, List.length_replicate]
      omega
    rw [List.getD_eq_getElem _ _ hkrep]
    simp

theorem expandSerie_one (s : List Val) : expandSerie s 1 = s.map (fun v => [v]) := by
  apply List.ext_getElem
  · simp [expandSerie]
  · intro j h1 h2
    have hj : j < s.length := by simpa using h2
    unfold expandSerie
    rw [List.getElem_map, List.getElem_map, List.getElem_range]
    have hmin : min (s.length - j) 1 = 1 := by omega
    simp only [hmin, Nat.sub_self, List.replicate_zero, List.append_nil]
    rw [List.drop_eq_getElem_cons hj]
    rfl

/-- **C6**.  `_expand_target` over a well-formed grouped array produces one
`max_horizon`-wide row per original observation, series by series; row `j` of
a series holds the series' own values at offsets `j+k` while they exist and
NaN past the series' end; and for `max_horizon = 1` the single column equals
the untransformed target. -/
theorem expand_target_semantics (gs : List (List Val)) (H : Nat) (serie : List Val)
    (j k : Nat) (hj : j < serie.length) (hk : k < H) :
    expandTarget gs.flatten (cumIndptr gs) H
      = (gs.map (fun s => expandSerie s H)).flatten ∧
    ((expandSerie serie H).getD j []).getD k nan
      = (if j + k < serie.length then serie.getD (j + k) nan else nan) ∧
    (expandSerie serie H).length = serie.length ∧
    expandTarget gs.flatten (cumIndptr gs) 1 = gs.flatten.map (fun v => [v]) := by
  refine ⟨expandTarget_flatten gs H, expandSerie_getD serie H j k hj hk, ?_, ?_⟩
  · simp [expandSerie]
  · rw [expandTarget_flatten gs 1]
    have hmap : gs.map (fun s => expandSerie s 1) = gs.map (fun s => s.map (fun v => [v])) := by
      apply List.map_congr_left
      intro s _
      exact expandSerie_one s
    rw [hmap, ← List.map_flatten]

/-- Witness for **C6**: two series `[1, 2]`, `[3]` with horizon 3; row 1 of a
two-point series at offset 2 reads past the end and yields NaN. -/
theorem expand_target_semantics_witness :
    1 < ([some 10, some 20] : List Val).length ∧ 2 < 3 ∧
    (expandTarget ([[some 1, some 2], [some 3]] : List (List Val)).flatten
        (cumIndptr [[some 1, some 2], [some 3]]) 3
      = ([[some 1, some 2], [some 3]].map (fun s => expandSerie s 3)).flatten ∧
    ((expandSerie [some 10, some 20] 3).getD 1 []).getD 2 nan
      = (if 1 + 2 < ([some 10, some 20] : List Val).length
          then ([some 10, some 20] : List Val).getD (1 + 2) nan else nan) ∧
    (expandSerie [some 10, some 20] 3).length = ([some 10, some 20] : List Val).length ∧
    expandTarget ([[some 1, some 2], [some 3]] : List (List Val)).flatten
        (cumIndptr [[some 1, some 2], [some 3]]) 1
      = ([[some 1, some 2], [some 3]] : List (List Val)).flatten.map (fun v => [v])) :=
  ⟨by decide, by decide,
    expand_target_semantics [[some 1, some 2], [some 3]] 3 [some 10, some 20] 1 2
      (by decide) (by decide)⟩

/-! ### `X_df` validation -/

theorem mem_commonCols (idCol timeCol c : String) (staticCols xCols : List String) :
    c ∈ commonCols idCol timeCol staticCols xCols
      ↔ (c ∈ staticCols ∧ c ≠ idCol ∧ c ∈ xCols ∧ c ≠ timeCol) := by
  unfold commonCols
  simp only [List.mem_filter, decide_eq_true_eq]
  tauto

theorem commonCols_empty_iff (idCol timeCol : String) (staticCols xCols : List String) :
    commonCols idCol timeCol staticCols xCols = []
      ↔ ∀ c ∈ staticCols, c = idCol ∨ c = timeCol ∨ c ∉ xCols := by
  rw [List.eq_nil_iff_forall_not_mem]
  constructor
  · intro h c hc
    by_cases h1 : c = idCol
    · exact Or.inl h1
    · by_cases h2 : c = timeCol
      · exact Or.inr (Or.inl h2)
      · refine Or.inr (Or.inr ?_)
        intro hx
        exact h c ((mem_commonCols idCol timeCol c staticCols xCols).mpr ⟨hc, h1, hx, h2⟩)
  · intro h c hmem
    obtain ⟨hc, h1, hx, h2⟩ := (mem_commonCols idCol timeCol c staticCols xCols).mp hmem
    rcases h c hc with e | e | e
    · exact h1 e
    · exact h2 e
    · exact e hx

/-- **C8** counterexample.  An `X_df` holding exactly the id and time columns,
with one row per requested id per step inside the forecast window and no
column shared with the statics, still makes `predict` raise: the `X_df.shape[1]
< 3` check ("Found no exogenous features") fires even though neither of the
claim's two conditions holds. -/
theorem xdf_validation_counterexample :
    validatePredXdf "id" "ds" ["id"] ["id", "ds"] [("a", 1)] [("a", 0)] 1 1
      = .error .noExogenous ∧
    commonCols "id" "ds" ["id"] ["id", "ds"] = [] ∧
    ((([("a", 1)] : List (String × Int)).filter
        (inForecastWindow [("a", 0)] 1 1)).length
      = ([("a", 0)] : List (String × Int)).length * 1) := by
  refine ⟨rfl, by decide, by decide⟩

/-- **C8** (amended).  The `X_df` validation in `predict` succeeds iff the
frame has the id and time columns, at least one further (exogenous) column,
shares no other column with the static features, and — restricted to the
forecast window — holds exactly `(number of requested ids) × horizon` rows;
any failure happens before the forecasting loop starts, so a failing
validation makes `predict` raise the same error no matter what the loop
would compute. -/
theorem xdf_validation_conditions (idCol timeCol : String) (staticCols xCols : List String)
    (xRows uidDates : List (String × Int)) (freq : Int) (horizon : Nat) :
    (validatePredXdf idCol timeCol staticCols xCols xRows uidDates freq horizon
        = .ok () ↔
      (idCol ∈ xCols ∧ timeCol ∈ xCols ∧ 3 ≤ xCols.length ∧
       (∀ c ∈ staticCols, c = idCol ∨ c = timeCol ∨ c ∉ xCols) ∧
       (xRows.filter (inForecastWindow uidDates freq horizon)).length
         = uidDates.length * horizon)) ∧
    (∀ e, validatePredXdf idCol timeCol staticCols xCols xRows uidDates freq horizon
        = .error e →
      ∀ run1 run2,
        predictWithXdf idCol timeCol staticCols xCols xRows uidDates freq horizon run1
          = predictWithXdf idCol timeCol staticCols xCols xRows uidDates freq horizon run2) := by
  constructor
  · unfold validatePredXdf
    by_cases hc1 : idCol ∈ xCols ∧ timeCol ∈ xCols
    · rw [if_neg (not_not_intro hc1)]
      by_cases hc2 : xCols.length < 3
      · rw [if_pos hc2]
        refine iff_of_false (by simp) ?_
        rintro ⟨-, -, h3, -⟩
        omega
      · rw [if_neg hc2]
        by_cases hc3 : (commonCols idCol timeCol staticCols xCols).isEmpty = true
        · rw [if_neg (not_not_intro hc3)]
          by_cases hc4 : (xRows.filter (inForecastWindow uidDates freq horizon)).length
              = uidDates.length * horizon
          · rw [if_neg (not_not_intro hc4)]
            refine iff_of_true rfl ?_
            exact ⟨hc1.1, hc1.2, by omega,
              (commonCols_empty_iff idCol timeCol staticCols xCols).mp
                (List.isEmpty_iff.mp hc3), hc4⟩
          · rw [if_pos hc4]
            exact iff_of_false (by simp) (fun h => hc4 h.2.2.2.2)
        · rw [if_pos hc3]
          refine iff_of_false (by simp) ?_
          rintro ⟨-, -, -, h4, -⟩
          exact hc3 (List.isEmpty_iff.mpr
            ((commonCols_empty_iff idCol timeCol staticCols xCols).mpr h4))
    · rw [if_pos hc1]
      exact iff_of_false (by simp) (fun h => hc1 ⟨h.1, h.2.1⟩)
  · intro e he run1 run2
    unfold predictWithXdf
    rw [he]

/-- Witness for **C8**: a two-column `X_df` fails validation with the
no-exogenous-features error, and `predict` then returns that error no matter
what the forecasting loop would have produced. -/
theorem xdf_validation_conditions_witness :
    (validatePredXdf "id" "ds" ["id"] ["id", "ds"] [] [] 1 1 = .error .noExogenous) ∧
    predictWithXdf "id" "ds" ["id"] ["id", "ds"] [] [] 1 1 (fun _ => none)
      = predictWithXdf "id" "ds" ["id"] ["id", "ds"] [] [] 1 1 (fun _ => some []) :=
  ⟨rfl,
    (xdf_validation_conditions "id" "ds" ["id"] ["id", "ds"] [] [] 1 1).2
      .noExogenous rfl _ _⟩

end MLForecast
